import Mathlib

/-!
Shallow embedding of the `xostrait` proc-macro crate (src/lib.rs).

The crate defines two attribute macros:

* `os_impl(args, input)`: splits the comma-separated OS list, trims each
  element, reads the trait path of the impl block (`unwrap`: aborts for an
  inherent impl), and emits (1) an unconditional registry-fact constant
  whose identifier is `format!("os_impl_{}_{}", trait_ident, oses.join("_"))`
  holding `(stringify!(trait_ident), &[oses...])`, and (2) the impl block
  under `#[cfg(any(target_os = os, ...))]`.

* `enforce_os_support(_args, input)`: parses the struct, iterates the
  `enforce_os_support` attributes remaining on it (its own argument token
  stream `_args` is ignored), and per attribute emits a registry include,
  a compile-time validation constant (filter the registry by trait name,
  union the platform lists, panic on the first required OS not contained),
  and a stub impl under `#[cfg(not(any(target_os = req, ...)))]` whose
  body is the single method `fn do_something(&self) -> String` containing
  `compile_error!`. All `enforce_os_support` attributes are then removed
  from the emitted struct.

Strings are modelled as `List Char`; Rust's `str::split(',')`, `str::trim`
(ASCII whitespace), `format!`/`join` and `Vec::contains` are embedded
directly. Aborts of the macro (panics / unwraps at expansion time) are
modelled by `Option`: `none` means the expansion aborts. `cfg` gating is
modelled by `Cfg` together with `Cfg.active target`, which decides whether
an emitted item is part of the program compiled for `target`.
-/

/-- Strings as lists of characters (Rust `&str`). -/
abbrev Str := List Char

/-- Rust `str::trim` (restricted to the whitespace characters Lean knows;
the tags in play are ASCII). Drops leading and trailing whitespace. -/
def trim (s : Str) : Str :=
  ((s.dropWhile Char.isWhitespace).reverse.dropWhile Char.isWhitespace).reverse

/-- Rust `str::split(c)`: splits at every occurrence of `c`; the result is
never empty, and empty fragments are kept (`"".split(c) == [""]`,
`"a,".split(',') == ["a", ""]`). -/
def splitSep (c : Char) : Str → List Str
  | [] => [[]]
  | x :: xs =>
    if x = c then [] :: splitSep c xs
    else
      match splitSep c xs with
      | [] => [[x]]
      | y :: ys => (x :: y) :: ys

/-- Rust `[String]::join(sep)` / `format!` interpolation of a joined list. -/
def joinWith (sep : Str) : List Str → Str
  | [] => []
  | [x] => x
  | x :: y :: ys => x ++ sep ++ joinWith sep (y :: ys)

/-- `os_list.split(',').map(|s| s.trim().to_string()).collect()` — the
platform-list normalisation shared by `os_impl` (line 12) and
`enforce_os_support` (line 53). -/
def parseOses (s : Str) : List Str := (splitSep ',' s).map trim

/-- `strStarts pat s` is true when `pat` is an initial segment of `s`. -/
def strStarts : Str → Str → Bool
  | [], _ => true
  | _ :: _, [] => false
  | p :: ps, x :: xs => p == x && strStarts ps xs

/-- `mentions msg pat` is true when `pat` occurs contiguously inside `msg`
(used to state that a diagnostic message names a trait or a platform tag). -/
def mentions : Str → Str → Bool
  | [], pat => strStarts pat []
  | m :: ms, pat => strStarts pat (m :: ms) || mentions ms pat

/-- A `syn::Path`: the sequence of `::`-separated segments' identifiers. -/
structure RPath where
  segments : List Str
deriving DecidableEq

/-- A `syn::Type` as far as `enforce_os_support` inspects it: a path type,
or anything else (tuple, reference, ...). -/
inductive RType where
  | path (p : RPath)
  | other
deriving DecidableEq

/-- A `syn::ItemImpl` as far as `os_impl` inspects it: the optional trait
reference (`None` for an inherent impl), the self type name and the
remaining tokens of the block (carried through opaquely). -/
structure ItemImpl where
  traitRef : Option RPath
  selfTy : Str
  body : Str
deriving DecidableEq

/-- The parsed arguments of one `enforce_os_support` attribute
(`EnforceArgs` in src/lib.rs: a trait type and a string literal). -/
structure EnforceArgs where
  traitTy : RType
  osList : Str
deriving DecidableEq

/-- An attribute on a struct: the identifier its path answers
`is_ident` for, and its argument tokens as parsed by
`parse_args::<EnforceArgs>` (`none` when that parse fails, which makes the
macro abort via `unwrap`). -/
structure Attr where
  pathIdent : Str
  parsedArgs : Option EnforceArgs
deriving DecidableEq

/-- A `syn::ItemStruct`: attributes plus the parts the macro never touches
(visibility, name, generics, fields), carried through opaquely. -/
structure ItemStruct where
  attrs : List Attr
  vis : Str
  ident : Str
  generics : Str
  fields : List Str
deriving DecidableEq

/-- A registry fact as consumed by the generated validation code
(`OS_IMPLS` entries are triples `(trait, oses, origin)`, see the
`filter(|(t, _, _)| ...)` pattern on line 76). -/
structure RegFact where
  traitName : Str
  oses : List Str
  origin : Str
deriving DecidableEq

/-- A `#[cfg(...)]` gate as generated by the two macros: absent,
`any(target_os = ...)`, or `not(any(target_os = ...))`. -/
inductive Cfg where
  | always
  | anyOf (oses : List Str)
  | notAnyOf (oses : List Str)
deriving DecidableEq

/-- Whether an item under the gate is part of the program compiled for
`target` (the value of `target_os`). -/
def Cfg.active (target : Str) : Cfg → Bool
  | .always => true
  | .anyOf oses => oses.contains target
  | .notAnyOf oses => !(oses.contains target)

/-- The gate `#[cfg(any(target_os = os, ...))]` placed on the conditional
copy of the impl block (src/lib.rs lines 26–29, 34). -/
def implCfg (oses : List Str) : Cfg := Cfg.anyOf oses

/-- The gate `#[cfg(not(any(target_os = os, ...)))]` placed on the
generated fallback stub (src/lib.rs line 89). -/
def stubCfg (required : List Str) : Cfg := Cfg.notAnyOf required

/-- The signature of a method of a generated impl. -/
structure MethodSig where
  name : Str
  takesSelfRef : Bool
  ret : Str
deriving DecidableEq

/-- The one method every generated stub declares:
`fn do_something(&self) -> String` (src/lib.rs line 91). -/
def fixedStubSig : MethodSig := ⟨"do_something".data, true, "String".data⟩

/-- One emitted top-level item of a macro expansion. -/
inductive Payload where
  | factConst (ident : Str) (traitName : Str) (oses : List Str)
  | implBlock (ib : ItemImpl)
  | registryInclude
  | validateConst (traitIdent : Str) (required : List Str)
  | stubImpl (traitTy : RType) (structName : Str) (sig : MethodSig) (errMsg : Str)
  | structDecl (s : ItemStruct)
deriving DecidableEq

/-- An emitted item together with its `#[cfg]` gate. -/
structure Item where
  cfg : Cfg
  payload : Payload
deriving DecidableEq

/-- `format!("os_impl_{}_{}", trait_ident, oses.join("_"))`
(src/lib.rs lines 20–23): the identifier of the registry-fact constant. -/
def mkImplIdent (traitIdent : Str) (oses : List Str) : Str :=
  "os_impl_".data ++ traitIdent ++ '_' :: joinWith ['_'] oses

/-- The `os_impl` attribute macro (src/lib.rs lines 9–38). `argsLit` is the
value of the string-literal argument; `none` models the expansion aborting
(the `unwrap` on a missing trait reference of an inherent impl, or on a
pathological empty segment list). -/
def osImplExpand (argsLit : Str) (ib : ItemImpl) : Option (List Item) :=
  let oses := parseOses argsLit
  match ib.traitRef with
  | none => none
  | some tp =>
    match tp.segments.getLast? with
    | none => none
    | some traitIdent =>
      some [⟨Cfg.always, Payload.factConst (mkImplIdent traitIdent oses) traitIdent oses⟩,
            ⟨implCfg oses, Payload.implBlock ib⟩]

/-- `format!("Trait {} must be implemented for one of: {}", trait_ident,
required_oses.join(", "))` (src/lib.rs lines 66–69). -/
def stubErrMsg (traitIdent : Str) (required : List Str) : Str :=
  "Trait ".data ++ traitIdent ++ " must be implemented for one of: ".data
    ++ joinWith ", ".data required

/-- Expansion of one `enforce_os_support` attribute (the loop body,
src/lib.rs lines 49–103): registry include, validation constant, and the
platform-gated stub. `none` models the aborts: `parse_args().unwrap()` and
`panic!("Trait must be a path type")`. -/
def enforceAttrOutput (structName : Str) (attr : Attr) : Option (List Item) :=
  match attr.parsedArgs with
  | none => none
  | some args =>
    match args.traitTy with
    | .other => none
    | .path p =>
      match p.segments.getLast? with
      | none => none
      | some traitIdent =>
        let required := parseOses args.osList
        some [⟨Cfg.always, Payload.registryInclude⟩,
              ⟨Cfg.always, Payload.validateConst traitIdent required⟩,
              ⟨stubCfg required,
                Payload.stubImpl args.traitTy structName fixedStubSig
                  (stubErrMsg traitIdent required)⟩]

/-- Sequencing of the loop over the filtered attributes: each attribute's
output in order, aborting the whole expansion if any attribute aborts. -/
def processAttrs (structName : Str) : List Attr → Option (List Item)
  | [] => some []
  | a :: rest =>
    match enforceAttrOutput structName a with
    | none => none
    | some out =>
      match processAttrs structName rest with
      | none => none
      | some more => some (out ++ more)

/-- `attr.path().is_ident("enforce_os_support")` (src/lib.rs lines 49, 105). -/
def isEnforceAttr (a : Attr) : Bool := a.pathIdent == "enforce_os_support".data

/-- The `enforce_os_support` attribute macro (src/lib.rs lines 44–112).
Its first parameter is the macro's own argument token stream, bound in the
source as `_args` and never read. The emitted struct keeps every attribute
except the `enforce_os_support` ones (`retain`, line 105), followed by the
per-attribute outputs. -/
def enforceExpand (_args : Option EnforceArgs) (s : ItemStruct) : Option (List Item) :=
  match processAttrs s.ident (s.attrs.filter isEnforceAttr) with
  | none => none
  | some enf =>
    some (⟨Cfg.always,
            Payload.structDecl
              { s with attrs := s.attrs.filter (fun a => !(isEnforceAttr a)) }⟩ :: enf)

/-- The union (as a concatenation) of the platform lists of all registry
facts whose trait name matches — the `implemented` vector of the generated
validation constant (src/lib.rs lines 74–79). -/
def implementedFor (traitIdent : Str) (registry : List RegFact) : List Str :=
  (registry.filter (fun f => f.traitName == traitIdent)).flatMap (·.oses)

/-- Compile-time evaluation of the generated validation constant
(src/lib.rs lines 71–86): `none` when the check passes; `some msg` when it
panics, with the message of the `panic!(concat!(...))` for the first
required OS not contained in `implemented`. -/
def validateCheck (traitIdent : Str) (required : List Str) (registry : List RegFact) :
    Option Str :=
  let implemented := implementedFor traitIdent registry
  match required.find? (fun r => !(implemented.contains r)) with
  | some r =>
    some ("Missing implementation for OS: ".data ++ r
            ++ " for trait ".data ++ traitIdent)
  | none => none

/-- The validation outcome an item contributes to the build for `target`:
`some result` when the item is a validation constant and is part of that
build, `none` otherwise. -/
def itemValidateOutcome (registry : List RegFact) (target : Str) (it : Item) :
    Option (Option Str) :=
  if it.cfg.active target then
    match it.payload with
    | .validateConst t req => some (validateCheck t req registry)
    | _ => none
  else none

theorem splitSep_ne_nil (c : Char) (s : Str) : splitSep c s ≠ [] := by
  induction s with
  | nil => simp [splitSep]
  | cons x xs ih =>
    simp only [splitSep]
    split
    · simp
    · split <;> simp

theorem splitSep_no_sep (c : Char) (x : Str) (h : c ∉ x) : splitSep c x = [x] := by
  induction x with
  | nil => rfl
  | cons d xs ih =>
    rw [List.mem_cons, not_or] at h
    obtain ⟨h1, h2⟩ := h
    have hdc : ¬ (d = c) := fun hh => h1 hh.symm
    simp only [splitSep, if_neg hdc, ih h2]

theorem splitSep_append (c : Char) (x r : Str) (h : c ∉ x) :
    splitSep c (x ++ c :: r) = x :: splitSep c r := by
  induction x with
  | nil => simp [splitSep]
  | cons d xs ih =>
    rw [List.mem_cons, not_or] at h
    obtain ⟨h1, h2⟩ := h
    have hdc : ¬ (d = c) := fun hh => h1 hh.symm
    simp only [List.cons_append, splitSep, if_neg hdc, List.append_eq, ih h2]

theorem joinWith_cons (sep : Str) (x y : Str) (ys : List Str) :
    joinWith sep (x :: y :: ys) = x ++ sep ++ joinWith sep (y :: ys) := rfl

theorem splitSep_joinWith (c : Char) (l : List Str) (hne : l ≠ [])
    (hfree : ∀ x ∈ l, c ∉ x) : splitSep c (joinWith [c] l) = l := by
  induction l with
  | nil => exact absurd rfl hne
  | cons x xs ih =>
    cases xs with
    | nil => exact splitSep_no_sep c x (hfree x (by simp))
    | cons y ys =>
      have hx : c ∉ x := hfree x (by simp)
      have hj : joinWith [c] (x :: y :: ys) = x ++ c :: joinWith [c] (y :: ys) := by
        rw [joinWith_cons, List.append_assoc, List.singleton_append]
      rw [hj, splitSep_append c x _ hx,
        ih (by simp) (fun z hz => hfree z (List.mem_cons_of_mem _ hz))]

theorem joinWith_inj (c : Char) (l₁ l₂ : List Str) (h₁ : l₁ ≠ []) (h₂ : l₂ ≠ [])
    (f₁ : ∀ x ∈ l₁, c ∉ x) (f₂ : ∀ x ∈ l₂, c ∉ x)
    (h : joinWith [c] l₁ = joinWith [c] l₂) : l₁ = l₂ := by
  have := congrArg (splitSep c) h
  rwa [splitSep_joinWith c l₁ h₁ f₁, splitSep_joinWith c l₂ h₂ f₂] at this

theorem mkImplIdent_eq_join (t : Str) (o : List Str) (h : o ≠ []) :
    mkImplIdent t o = joinWith ['_'] ("os".data :: "impl".data :: t :: o) := by
  cases o with
  | nil => exact absurd rfl h
  | cons z zs =>
    rw [joinWith_cons, joinWith_cons, joinWith_cons]
    simp only [mkImplIdent, List.append_assoc, List.singleton_append]
    rfl

theorem strStarts_self_append (pat r : Str) : strStarts pat (pat ++ r) = true := by
  induction pat with
  | nil => rfl
  | cons p ps ih => simp [strStarts, ih]

theorem mentions_nil (s : Str) : mentions s [] = true := by
  cases s <;> simp [mentions, strStarts]

theorem mentions_of_starts (pat r : Str) : mentions (pat ++ r) pat = true := by
  cases pat with
  | nil => exact mentions_nil _
  | cons p ps =>
    have h := strStarts_self_append (p :: ps) r
    rw [List.cons_append] at h
    simp [mentions, h]

theorem mentions_append_left (a b pat : Str) (h : mentions b pat = true) :
    mentions (a ++ b) pat = true := by
  induction a with
  | nil => exact h
  | cons x xs ih => simp [mentions, ih]

theorem mentions_suffix (a pat : Str) : mentions (a ++ pat) pat = true := by
  have h := mentions_of_starts pat []
  rw [List.append_nil] at h
  exact mentions_append_left a pat pat h

theorem str_contains_iff (l : List Str) (a : Str) : l.contains a = true ↔ a ∈ l := by
  exact List.elem_iff

theorem enforceAttrOutput_shape (sn : Str) (a : Attr) (out : List Item)
    (h : enforceAttrOutput sn a = some out) :
    ∃ ea tI, a.parsedArgs = some ea ∧
      out = [⟨Cfg.always, Payload.registryInclude⟩,
             ⟨Cfg.always, Payload.validateConst tI (parseOses ea.osList)⟩,
             ⟨stubCfg (parseOses ea.osList),
               Payload.stubImpl ea.traitTy sn fixedStubSig
                 (stubErrMsg tI (parseOses ea.osList))⟩] := by
  cases hp : a.parsedArgs with
  | none => simp only [enforceAttrOutput, hp] at h; exact Option.noConfusion h
  | some ea =>
    cases htt : ea.traitTy with
    | other => simp only [enforceAttrOutput, hp, htt] at h; exact Option.noConfusion h
    | path p =>
      cases hl : p.segments.getLast? with
      | none => simp only [enforceAttrOutput, hp, htt, hl] at h; exact Option.noConfusion h
      | some tI =>
        simp only [enforceAttrOutput, hp, htt, hl, Option.some.injEq] at h
        exact ⟨ea, tI, rfl, by rw [← h, htt]⟩

theorem processAttrs_mem (sn : Str) (l : List Attr) (items : List Item)
    (h : processAttrs sn l = some items) (it : Item) (hit : it ∈ items) :
    ∃ a ∈ l, ∃ out, enforceAttrOutput sn a = some out ∧ it ∈ out := by
  induction l generalizing items with
  | nil =>
    simp only [processAttrs, Option.some.injEq] at h
    subst h
    cases hit
  | cons x xs ih =>
    cases hx : enforceAttrOutput sn x with
    | none => simp only [processAttrs, hx] at h; exact Option.noConfusion h
    | some out =>
      cases hrest : processAttrs sn xs with
      | none => simp only [processAttrs, hx, hrest] at h; exact Option.noConfusion h
      | some more =>
        simp only [processAttrs, hx, hrest, Option.some.injEq] at h
        subst h
        rcases List.mem_append.mp hit with h1 | h2
        · exact ⟨x, List.mem_cons_self x xs, out, hx, h1⟩
        · obtain ⟨a, ha, out', ho, hi⟩ := ih more hrest h2
          exact ⟨a, List.mem_cons_of_mem _ ha, out', ho, hi⟩

theorem processAttrs_eq_none (sn : Str) (l : List Attr) (a : Attr) (ha : a ∈ l)
    (hout : enforceAttrOutput sn a = none) : processAttrs sn l = none := by
  induction l with
  | nil => cases ha
  | cons x xs ih =>
    rcases List.mem_cons.mp ha with rfl | hmem
    · simp [processAttrs, hout]
    · cases hx : enforceAttrOutput sn x with
      | none => simp [processAttrs, hx]
      | some out => simp [processAttrs, hx, ih hmem]

theorem enforceExpand_shape (ma : Option EnforceArgs) (s : ItemStruct)
    (items : List Item) (h : enforceExpand ma s = some items) :
    ∃ enf, processAttrs s.ident (s.attrs.filter isEnforceAttr) = some enf ∧
      items = ⟨Cfg.always, Payload.structDecl
        { s with attrs := s.attrs.filter (fun a => !(isEnforceAttr a)) }⟩ :: enf := by
  cases hp : processAttrs s.ident (s.attrs.filter isEnforceAttr) with
  | none => simp only [enforceExpand, hp] at h; exact Option.noConfusion h
  | some enf =>
    simp only [enforceExpand, hp, Option.some.injEq] at h
    exact ⟨enf, rfl, h.symm⟩

theorem find?_missing_iff (tI : Str) (required : List Str) (reg : List RegFact) :
    (required.find? (fun r => !((implementedFor tI reg).contains r)) = none)
      ↔ ∀ r ∈ required, r ∈ implementedFor tI reg := by
  rw [List.find?_eq_none]
  constructor
  · intro h r hr
    have hh := h r hr
    rw [← str_contains_iff]
    revert hh
    cases (implementedFor tI reg).contains r <;> simp
  · intro h r hr
    have hc := (str_contains_iff (implementedFor tI reg) r).mpr (h r hr)
    rw [hc]
    simp

/-- C1 (amended): the generated compile-time check for a requirement
`(T, R)` passes exactly when every tag of `R` is in the union of the
platform sets registered for `T`; on failure the diagnostic names `T` and
the **first** missing tag in declaration order (not each missing tag), and
on success no diagnostic is produced. -/
theorem claim_C1 (tI : Str) (required : List Str) (reg : List RegFact) :
    (validateCheck tI required reg = none ↔
      ∀ r ∈ required, r ∈ implementedFor tI reg) ∧
    (∀ m, validateCheck tI required reg = some m →
      mentions m tI = true ∧
      ∃ r ∈ required, r ∉ implementedFor tI reg ∧ mentions m r = true) := by
  constructor
  · cases hf : required.find? (fun r => !((implementedFor tI reg).contains r)) with
    | none =>
      constructor
      · intro _
        exact (find?_missing_iff tI required reg).mp hf
      · intro _
        simp only [validateCheck, hf]
    | some r =>
      constructor
      · intro hc
        exfalso
        simp only [validateCheck, hf] at hc
        exact Option.noConfusion hc
      · intro hall
        exfalso
        rw [(find?_missing_iff tI required reg).mpr hall] at hf
        exact Option.noConfusion hf
  · intro m hm
    cases hf : required.find? (fun r => !((implementedFor tI reg).contains r)) with
    | none => simp only [validateCheck, hf] at hm; exact Option.noConfusion hm
    | some r =>
      simp only [validateCheck, hf, Option.some.injEq] at hm
      subst hm
      have hmem : r ∈ required := List.mem_of_find?_eq_some hf
      have hpred := List.find?_some hf
      rw [Bool.not_eq_true'] at hpred
      have hnotin : r ∉ implementedFor tI reg := fun hc => by
        rw [(str_contains_iff _ r).mpr hc] at hpred
        exact Bool.noConfusion hpred
      refine ⟨mentions_suffix _ tI, r, hmem, hnotin, ?_⟩
      have hassoc :
          "Missing implementation for OS: ".data ++ r ++ " for trait ".data ++ tI
            = "Missing implementation for OS: ".data
                ++ (r ++ (" for trait ".data ++ tI)) := by
        simp [List.append_assoc]
      rw [hassoc]
      exact mentions_append_left _ _ r (mentions_of_starts r _)

/-- C1 witness: with an empty registry and requirement `(TraitA, [windows])`
the check fails and the diagnostic names the trait. -/
theorem claim_C1_witness :
    mentions ("Missing implementation for OS: ".data ++ "windows".data
                ++ " for trait ".data ++ "TraitA".data) "TraitA".data = true :=
  (((claim_C1 "TraitA".data ["windows".data] []).2 _ rfl).1)

/-- C1 counterexample: for the requirement `(TraitA, [windows, macos])`
against a registry implementing only `linux`, both tags are missing, the
check fails, but the diagnostic does not name the missing tag `macos` —
refuting "the diagnostic names T and each missing tag". -/
theorem claim_C1_cex :
    validateCheck "TraitA".data ["windows".data, "macos".data]
        [⟨"TraitA".data, ["linux".data], "f1".data⟩] =
      some ("Missing implementation for OS: ".data ++ "windows".data
              ++ " for trait ".data ++ "TraitA".data) ∧
    "macos".data ∈ (["windows".data, "macos".data] : List Str) ∧
    "macos".data ∉
      implementedFor "TraitA".data [⟨"TraitA".data, ["linux".data], "f1".data⟩] ∧
    mentions ("Missing implementation for OS: ".data ++ "windows".data
                ++ " for trait ".data ++ "TraitA".data) "macos".data = false := by
  decide

/-- C2: a successful `os_impl` expansion produces exactly two items: a
registry-fact constant named by `mkImplIdent`, pairing the trait's simple
name with the platform list, active under every build target; and a copy
of the impl block gated by `any(target_os = ...)`, compiled exactly when
the active `target_os` is a member of the platform list. -/
theorem claim_C2 (a : Str) (ib : ItemImpl) (items : List Item)
    (h : osImplExpand a ib = some items) :
    ∃ tI, items =
        [⟨Cfg.always, Payload.factConst (mkImplIdent tI (parseOses a)) tI (parseOses a)⟩,
         ⟨implCfg (parseOses a), Payload.implBlock ib⟩] ∧
      (∀ target, Cfg.active target Cfg.always = true) ∧
      (∀ target,
        Cfg.active target (implCfg (parseOses a)) = (parseOses a).contains target) := by
  cases htr : ib.traitRef with
  | none => simp only [osImplExpand, htr] at h; exact Option.noConfusion h
  | some tp =>
    cases hl : tp.segments.getLast? with
    | none => simp only [osImplExpand, htr, hl] at h; exact Option.noConfusion h
    | some tI =>
      simp only [osImplExpand, htr, hl, Option.some.injEq] at h
      exact ⟨tI, h.symm, fun _ => rfl, fun _ => rfl⟩

/-- C2 witness: the expansion at a concrete single-platform impl of
`MyTrait`. -/
theorem claim_C2_witness :
    ∃ tI,
      ([⟨Cfg.always,
          Payload.factConst "os_impl_MyTrait_linux".data "MyTrait".data ["linux".data]⟩,
        ⟨implCfg ["linux".data],
          Payload.implBlock ⟨some ⟨["MyTrait".data]⟩, "S".data, "b".data⟩⟩] : List Item) =
        [⟨Cfg.always,
           Payload.factConst (mkImplIdent tI (parseOses "linux".data)) tI
             (parseOses "linux".data)⟩,
         ⟨implCfg (parseOses "linux".data),
           Payload.implBlock ⟨some ⟨["MyTrait".data]⟩, "S".data, "b".data⟩⟩] ∧
      (∀ target, Cfg.active target Cfg.always = true) ∧
      (∀ target,
        Cfg.active target (implCfg (parseOses "linux".data))
          = (parseOses "linux".data).contains target) :=
  claim_C2 "linux".data ⟨some ⟨["MyTrait".data]⟩, "S".data, "b".data⟩ _ rfl

/-- C3 (amended): for a build target `p`, the real implementation (gated
on the impl's platform set `S`) and the generated stub (gated on the
requirement's set `R`) are active as exactly one of the two precisely when
`p`'s membership in `S` agrees with its membership in `R`; when `p ∈ S`
but `p ∉ R` both are compiled, and when `p ∉ S` but `p ∈ R` neither is. -/
theorem claim_C3 (S R : List Str) (p : Str) :
    ((Cfg.active p (implCfg S)).xor (Cfg.active p (stubCfg R)) = true) ↔
      (S.contains p = R.contains p) := by
  simp only [implCfg, stubCfg, Cfg.active]
  cases h1 : S.contains p <;> cases h2 : R.contains p <;> simp

/-- C3 counterexample: an implementation for `{linux, macos}` paired with
a requirement for `{linux}` only — on a `macos` build both the real
implementation and the failing stub are part of the compiled program,
refuting "exactly one of the two, never both and never neither". -/
theorem claim_C3_cex :
    Cfg.active "macos".data (implCfg ["linux".data, "macos".data]) = true ∧
    Cfg.active "macos".data (stubCfg ["linux".data]) = true ∧
    ¬ ((Cfg.active "macos".data (implCfg ["linux".data, "macos".data])).xor
        (Cfg.active "macos".data (stubCfg ["linux".data])) = true) := by
  decide

/-- C4: the bug. `enforce_os_support` never reads its own argument token
stream (bound as `_args` in the source), so its output is the same
whatever requirement invoked it; and when no further `enforce_os_support`
attribute remains on the struct — which is exactly the state the macro
receives when the struct carried a single requirement annotation, since
the invoking attribute is stripped from the item before expansion — it
emits the struct alone, validating nothing. -/
theorem claim_C4 :
    (∀ (a₁ a₂ : Option EnforceArgs) (s : ItemStruct),
      enforceExpand a₁ s = enforceExpand a₂ s) ∧
    (∀ (a : Option EnforceArgs) (s : ItemStruct), s.attrs = [] →
      enforceExpand a s = some [⟨Cfg.always, Payload.structDecl s⟩]) := by
  refine ⟨fun _ _ _ => rfl, ?_⟩
  intro a s hattrs
  obtain ⟨atr, v, i, g, fl⟩ := s
  simp only at hattrs
  subst hattrs
  rfl

/-- C4 witness: the single-requirement struct as the macro receives it. -/
theorem claim_C4_witness :
    enforceExpand (some ⟨RType.path ⟨["MyTrait".data]⟩, "linux".data⟩)
        ⟨[], "".data, "S".data, "".data, []⟩ =
      some [⟨Cfg.always, Payload.structDecl ⟨[], "".data, "S".data, "".data, []⟩⟩] :=
  claim_C4.2 (some ⟨RType.path ⟨["MyTrait".data]⟩, "linux".data⟩)
    ⟨[], "".data, "S".data, "".data, []⟩ rfl

theorem validate_cfg_always (ma : Option EnforceArgs) (s : ItemStruct)
    (items : List Item) (h : enforceExpand ma s = some items)
    (it : Item) (hit : it ∈ items) (tI : Str) (req : List Str)
    (hp : it.payload = Payload.validateConst tI req) : it.cfg = Cfg.always := by
  obtain ⟨enf, hpa, hitems⟩ := enforceExpand_shape ma s items h
  subst hitems
  rcases List.mem_cons.mp hit with rfl | hmem
  · cases hp
  · obtain ⟨a, _, out, hout, hiout⟩ := processAttrs_mem _ _ _ hpa it hmem
    obtain ⟨ea, tI', _, hshape⟩ := enforceAttrOutput_shape _ _ _ hout
    subst hshape
    simp only [List.mem_cons, List.not_mem_nil, or_false] at hiout
    rcases hiout with rfl | rfl | rfl
    · rfl
    · rfl
    · cases hp

/-- C5: the outcome of the coverage validation is a function of the
requirement and the registry only — mapping the validation outcome over
the items emitted for a struct gives the same result for any two build
targets, because the generated check carries no `cfg` gate. -/
theorem claim_C5 (ma : Option EnforceArgs) (s : ItemStruct) (items : List Item)
    (h : enforceExpand ma s = some items) (reg : List RegFact) (t₁ t₂ : Str) :
    items.map (itemValidateOutcome reg t₁) = items.map (itemValidateOutcome reg t₂) := by
  apply List.map_congr_left
  intro it hit
  by_cases hval : ∃ tI req, it.payload = Payload.validateConst tI req
  · obtain ⟨tI, req, hp⟩ := hval
    have hcfg := validate_cfg_always ma s items h it hit tI req hp
    simp [itemValidateOutcome, hcfg, Cfg.active, hp]
  · have hnone : ∀ t, itemValidateOutcome reg t it = none := by
      intro t
      cases hc : it.cfg.active t with
      | false => simp [itemValidateOutcome, hc]
      | true =>
        cases hpp : it.payload
        case validateConst tI req => exact absurd ⟨tI, req, hpp⟩ hval
        all_goals simp [itemValidateOutcome, hc, hpp]
    rw [hnone t₁, hnone t₂]

/-- C5 witness: the expansion of a concrete requirement, evaluated against
the empty registry for a `linux` and a `windows` build. -/
theorem claim_C5_witness :
    List.map (itemValidateOutcome [] "linux".data)
        [⟨Cfg.always, Payload.structDecl ⟨[], "".data, "S".data, "".data, []⟩⟩,
         ⟨Cfg.always, Payload.registryInclude⟩,
         ⟨Cfg.always, Payload.validateConst "MyTrait".data (parseOses "linux".data)⟩,
         ⟨stubCfg (parseOses "linux".data),
           Payload.stubImpl (RType.path ⟨["MyTrait".data]⟩) "S".data fixedStubSig
             (stubErrMsg "MyTrait".data (parseOses "linux".data))⟩] =
      List.map (itemValidateOutcome [] "windows".data)
        [⟨Cfg.always, Payload.structDecl ⟨[], "".data, "S".data, "".data, []⟩⟩,
         ⟨Cfg.always, Payload.registryInclude⟩,
         ⟨Cfg.always, Payload.validateConst "MyTrait".data (parseOses "linux".data)⟩,
         ⟨stubCfg (parseOses "linux".data),
           Payload.stubImpl (RType.path ⟨["MyTrait".data]⟩) "S".data fixedStubSig
             (stubErrMsg "MyTrait".data (parseOses "linux".data))⟩] :=
  claim_C5 none
    ⟨[⟨"enforce_os_support".data,
        some ⟨RType.path ⟨["MyTrait".data]⟩, "linux".data⟩⟩],
      "".data, "S".data, "".data, []⟩
    _ rfl [] "linux".data "windows".data

/-- C6 (amended): the registry-fact constant's identifier is a
deterministic function of the trait's simple name and the platform list,
and it is injective on distinct pairs provided the trait name and every
tag are free of underscores; pairs whose tags contain underscores can
collide (see the counterexample). -/
theorem claim_C6 (t₁ t₂ : Str) (o₁ o₂ : List Str)
    (h₁ : o₁ ≠ []) (h₂ : o₂ ≠ [])
    (ht₁ : '_' ∉ t₁) (ht₂ : '_' ∉ t₂)
    (ho₁ : ∀ x ∈ o₁, '_' ∉ x) (ho₂ : ∀ x ∈ o₂, '_' ∉ x)
    (h : mkImplIdent t₁ o₁ = mkImplIdent t₂ o₂) : t₁ = t₂ ∧ o₁ = o₂ := by
  rw [mkImplIdent_eq_join t₁ o₁ h₁, mkImplIdent_eq_join t₂ o₂ h₂] at h
  have hfree₁ : ∀ x ∈ ("os".data :: "impl".data :: t₁ :: o₁), '_' ∉ x := by
    intro x hx
    simp only [List.mem_cons] at hx
    rcases hx with rfl | rfl | rfl | hx
    · decide
    · decide
    · exact ht₁
    · exact ho₁ x hx
  have hfree₂ : ∀ x ∈ ("os".data :: "impl".data :: t₂ :: o₂), '_' ∉ x := by
    intro x hx
    simp only [List.mem_cons] at hx
    rcases hx with rfl | rfl | rfl | hx
    · decide
    · decide
    · exact ht₂
    · exact ho₂ x hx
  have hlists := joinWith_inj '_' _ _ (by simp) (by simp) hfree₁ hfree₂ h
  injection hlists with e₁ rest
  injection rest with e₂ rest₂
  injection rest₂ with e₃ e₄
  exact ⟨e₃, e₄⟩

/-- C6 witness: underscore-free inputs recover themselves. -/
theorem claim_C6_witness : ("A".data : Str) = "A".data ∧ (["b".data] : List Str) = ["b".data] :=
  claim_C6 "A".data "A".data ["b".data] ["b".data] (by decide) (by decide)
    (by decide) (by decide) (by decide) (by decide) rfl

/-- C6 counterexample: the distinct pairs `(A, [b_c])` and `(A, [b, c])`
generate the same constant identifier `os_impl_A_b_c`, refuting
injectivity on all distinct (trait, platform-list) pairs. -/
theorem claim_C6_cex :
    mkImplIdent "A".data ["b_c".data] = mkImplIdent "A".data ["b".data, "c".data] ∧
    ¬ ((("A".data : Str), (["b_c".data] : List Str))
        = ("A".data, ["b".data, "c".data])) := by
  decide

/-- C7: the abort behaviour where the offending input is actually seen,
and the bug where it is not. An inherent (trait-less) impl makes `os_impl`
abort at expansion time; an `enforce_os_support` attribute naming a
non-path type as the trait aborts the whole `enforce_os_support` expansion
whenever it is among the attributes present on the struct item. But a
struct whose sole requirement annotation names a non-path trait reaches
the macro with that annotation's arguments in the never-read `_args` and
no `enforce_os_support` attribute left on the item, and the expansion then
silently succeeds, emitting the struct with no diagnostic — the
`panic!("Trait must be a path type")` of src/lib.rs line 57 is unreachable
for the triggering annotation, so the fail-fast contract is not met. -/
theorem claim_C7 :
    (∀ (a : Str) (ib : ItemImpl), ib.traitRef = none → osImplExpand a ib = none) ∧
    (∀ (ma : Option EnforceArgs) (s : ItemStruct) (attr : Attr) (ea : EnforceArgs),
      attr ∈ s.attrs → isEnforceAttr attr = true → attr.parsedArgs = some ea →
      ea.traitTy = RType.other → enforceExpand ma s = none) ∧
    enforceExpand (some ⟨RType.other, "linux".data⟩)
        ⟨[], "".data, "S".data, "".data, []⟩ =
      some [⟨Cfg.always, Payload.structDecl ⟨[], "".data, "S".data, "".data, []⟩⟩] := by
  refine ⟨?_, ?_, rfl⟩
  · intro a ib htr
    simp only [osImplExpand, htr]
  · intro ma s attr ea hmem henf hargs htt
    have hout : enforceAttrOutput s.ident attr = none := by
      simp only [enforceAttrOutput, hargs, htt]
    have hfilter : attr ∈ s.attrs.filter isEnforceAttr :=
      List.mem_filter.mpr ⟨hmem, henf⟩
    have hproc := processAttrs_eq_none s.ident _ attr hfilter hout
    simp only [enforceExpand, hproc]

/-- C7 witness: a concrete inherent impl aborts `os_impl`, and a concrete
non-path trait reference among the remaining attributes aborts
`enforce_os_support`. -/
theorem claim_C7_witness :
    osImplExpand "linux".data ⟨none, "S".data, "".data⟩ = none ∧
    enforceExpand none
        ⟨[⟨"enforce_os_support".data, some ⟨RType.other, "linux".data⟩⟩],
          "".data, "S".data, "".data, []⟩ = none :=
  ⟨claim_C7.1 "linux".data ⟨none, "S".data, "".data⟩ rfl,
   claim_C7.2.1 none _ ⟨"enforce_os_support".data, some ⟨RType.other, "linux".data⟩⟩
     ⟨RType.other, "linux".data⟩ (by decide) (by decide) rfl rfl⟩

/-- C8: the platform-list parser splits on commas and trims each element,
so comma-joined inputs whose fragments differ only by surrounding
whitespace (equal after trimming) parse to equal normalized sequences; in
particular the three spec examples parse identically. -/
theorem claim_C8 :
    (∀ c₁ c₂ : List Str, c₁ ≠ [] → c₂ ≠ [] →
      (∀ x ∈ c₁, ',' ∉ x) → (∀ x ∈ c₂, ',' ∉ x) →
      c₁.map trim = c₂.map trim →
      parseOses (joinWith [','] c₁) = parseOses (joinWith [','] c₂)) ∧
    parseOses "linux, windows".data = parseOses "linux,windows".data ∧
    parseOses "linux,windows".data = parseOses " linux , windows ".data := by
  refine ⟨?_, by decide, by decide⟩
  intro c₁ c₂ h₁ h₂ f₁ f₂ hmap
  unfold parseOses
  rw [splitSep_joinWith ',' c₁ h₁ f₁, splitSep_joinWith ',' c₂ h₂ f₂, hmap]

/-- C8 witness: `"linux, windows"` and `"linux,windows"` as comma-joins of
fragments equal up to whitespace. -/
theorem claim_C8_witness :
    parseOses (joinWith [','] ["linux".data, " windows".data]) =
      parseOses (joinWith [','] ["linux".data, "windows".data]) :=
  claim_C8.1 ["linux".data, " windows".data] ["linux".data, "windows".data]
    (by decide) (by decide) (by decide) (by decide) (by decide)

/-- C9: the struct emitted by `enforce_os_support` is the input struct
with every `enforce_os_support` attribute removed and everything else —
remaining attributes, visibility, name, generics, fields — unchanged. -/
theorem claim_C9 (ma : Option EnforceArgs) (s : ItemStruct) (items : List Item)
    (h : enforceExpand ma s = some items) :
    ∃ s', items.head? = some ⟨Cfg.always, Payload.structDecl s'⟩ ∧
      s'.attrs = s.attrs.filter (fun a => !(isEnforceAttr a)) ∧
      (∀ a ∈ s'.attrs, isEnforceAttr a = false) ∧
      (∀ a : Attr, a ∈ s'.attrs ↔ a ∈ s.attrs ∧ isEnforceAttr a = false) ∧
      s'.vis = s.vis ∧ s'.ident = s.ident ∧ s'.generics = s.generics ∧
      s'.fields = s.fields := by
  obtain ⟨enf, hpa, hitems⟩ := enforceExpand_shape ma s items h
  subst hitems
  refine ⟨_, rfl, rfl, ?_, ?_, rfl, rfl, rfl, rfl⟩
  · intro a ha
    have hb := (List.mem_filter.mp ha).2
    revert hb
    cases isEnforceAttr a <;> simp
  · intro a
    constructor
    · intro ha
      have hm := List.mem_filter.mp ha
      refine ⟨hm.1, ?_⟩
      have hb := hm.2
      revert hb
      cases isEnforceAttr a <;> simp
    · rintro ⟨hmem, hfalse⟩
      exact List.mem_filter.mpr ⟨hmem, by simp [hfalse]⟩

/-- C9 witness: a struct carrying one unrelated attribute passes through
unchanged. -/
theorem claim_C9_witness :
    ∃ s',
      ([⟨Cfg.always,
          Payload.structDecl
            ⟨[⟨"derive".data, none⟩], "".data, "T".data, "".data, []⟩⟩] :
          List Item).head? = some ⟨Cfg.always, Payload.structDecl s'⟩ ∧
      s'.attrs =
        (⟨[⟨"derive".data, none⟩], "".data, "T".data, "".data, []⟩ :
          ItemStruct).attrs.filter (fun a => !(isEnforceAttr a)) ∧
      (∀ a ∈ s'.attrs, isEnforceAttr a = false) ∧
      (∀ a : Attr, a ∈ s'.attrs ↔
        a ∈ (⟨[⟨"derive".data, none⟩], "".data, "T".data, "".data, []⟩ :
          ItemStruct).attrs ∧ isEnforceAttr a = false) ∧
      s'.vis = "".data ∧ s'.ident = "T".data ∧ s'.generics = "".data ∧
      s'.fields = ([] : List Str) :=
  claim_C9 none ⟨[⟨"derive".data, none⟩], "".data, "T".data, "".data, []⟩ _ rfl

/-- C10: every stub implementation emitted by `enforce_os_support` has the
fixed single method `fn do_something(&self) -> String` with a
`compile_error!` body; the generation never consults the required trait's
actual methods. -/
theorem claim_C10 (ma : Option EnforceArgs) (s : ItemStruct) (items : List Item)
    (h : enforceExpand ma s = some items) (it : Item) (hit : it ∈ items)
    (tt : RType) (sn : Str) (sig : MethodSig) (msg : Str)
    (hp : it.payload = Payload.stubImpl tt sn sig msg) : sig = fixedStubSig := by
  obtain ⟨enf, hpa, hitems⟩ := enforceExpand_shape ma s items h
  subst hitems
  rcases List.mem_cons.mp hit with rfl | hmem
  · cases hp
  · obtain ⟨a, _, out, hout, hiout⟩ := processAttrs_mem _ _ _ hpa it hmem
    obtain ⟨ea, tI, _, hshape⟩ := enforceAttrOutput_shape _ _ _ hout
    subst hshape
    simp only [List.mem_cons, List.not_mem_nil, or_false] at hiout
    rcases hiout with rfl | rfl | rfl
    · cases hp
    · cases hp
    · injection hp with e₁ e₂ e₃ e₄
      exact e₃.symm

/-- C10 witness: the stub generated for a concrete requirement carries the
fixed `do_something` signature. -/
theorem claim_C10_witness :
    (⟨"do_something".data, true, "String".data⟩ : MethodSig) = fixedStubSig :=
  claim_C10 none
    ⟨[⟨"enforce_os_support".data,
        some ⟨RType.path ⟨["MyTrait".data]⟩, "linux".data⟩⟩],
      "".data, "S".data, "".data, []⟩
    _ rfl
    ⟨stubCfg (parseOses "linux".data),
      Payload.stubImpl (RType.path ⟨["MyTrait".data]⟩) "S".data fixedStubSig
        (stubErrMsg "MyTrait".data (parseOses "linux".data))⟩
    (by decide)
    (RType.path ⟨["MyTrait".data]⟩) "S".data
    ⟨"do_something".data, true, "String".data⟩
    (stubErrMsg "MyTrait".data (parseOses "linux".data))
    rfl
